import Mathlib

/-!
Verification of the crawl orchestration and result-store subsystem of the
ailiinux-ai-server-backend repository, shallowly embedded from
`src/app/services/crawler/manager.py`.

Modelling conventions:
* Python floats (relevance scores, rating averages) are modelled as `ℚ`.
* `datetime` values are modelled as integers (a linear timeline); `timedelta`
  arithmetic becomes integer arithmetic in the same unit.
* Python strings are modelled as `String`; where character counts matter
  (`_build_excerpt`) we work on `List Char`, matching Python's `len`/slicing,
  which count code points.
* Python `dict`s (insertion-ordered, unique keys) are modelled as association
  lists `List (String × α)` in insertion order; `OrderedDict.popitem(last=False)`
  pops the head.  States reachable from the Python program always have
  pairwise-distinct keys, which appears as a `Nodup` hypothesis where needed.
* `len(json.dumps(result.to_dict()).encode("utf-8"))` is an opaque
  serialization length; it is modelled by an arbitrary function
  `sizeOf : CrawlResult → ℕ` passed to the store operations.
-/

namespace Crawler

/-- Association-list model of a Python `dict`/`OrderedDict` keyed by strings,
kept in insertion order. -/
abbrev Dict (α : Type) := List (String × α)

/-- `d.get(k)` / `d[k]` lookup: first binding of the key. -/
def dget {α : Type} : Dict α → String → Option α
  | [], _ => none
  | (k, v) :: rest, key => if k = key then some v else dget rest key

/-- `d.get(k, dflt)`. -/
def dgetD {α : Type} (d : Dict α) (key : String) (dflt : α) : α :=
  (dget d key).getD dflt

/-- `d[k] = v`: replace the binding in place if the key exists (Python dicts
keep the key's position), otherwise append at the end (insertion order). -/
def dset {α : Type} : Dict α → String → α → Dict α
  | [], key, v => [(key, v)]
  | (k, w) :: rest, key, v =>
    if k = key then (key, v) :: rest else (k, w) :: dset rest key v

/-- `d.pop(k, dflt)`'s removal effect (the returned value is `dgetD d k dflt`). -/
def dpop {α : Type} : Dict α → String → Dict α
  | [], _ => []
  | (k, w) :: rest, key => if k = key then rest else (k, w) :: dpop rest key

/-- `CrawlFeedback` dataclass: a rating attached to a result. -/
structure CrawlFeedback where
  score : ℚ
  comment : Option String
  source : String
  confirmed : Bool
  createdAt : ℤ
  deriving Repr, DecidableEq

/-- `CrawlResult` dataclass: one accepted page.  `spool_path` (an unused
`pathlib.Path` field) is modelled as an optional string. -/
structure CrawlResult where
  id : String
  jobId : String
  url : String
  depth : ℕ
  parentUrl : Option String
  status : String
  title : String
  summary : Option String
  headline : Option String
  content : String
  excerpt : String
  metaDescription : Option String
  keywordsMatched : List String
  score : ℚ
  publishDate : Option String
  createdAt : ℤ
  updatedAt : ℤ
  ratings : List CrawlFeedback
  ratingAverage : ℚ
  ratingCount : ℕ
  confirmations : ℕ
  tags : List String
  spoolPath : Option String
  sizeBytes : ℕ
  postedAt : Option ℤ
  postId : Option ℤ
  topicId : Option ℤ
  normalizedText : Option String
  contentHash : Option String
  sourceDomain : Option String
  labels : List String
  tokensEst : Option ℕ
  deriving Repr, DecidableEq

/-- `CrawlJob` dataclass (the fields consumed by the worker loop; the free-form
`metadata` dict is modelled as string pairs). -/
structure CrawlJob where
  id : String
  keywords : List String
  seeds : List String
  maxDepth : ℕ
  maxPages : ℕ
  allowedDomains : List String
  allowExternal : Bool
  relevanceThreshold : ℚ
  rateLimit : ℚ
  userContext : Option String
  requestedBy : Option String
  metadata : List (String × String)
  status : String
  createdAt : ℤ
  updatedAt : ℤ
  completedAt : Option ℤ
  pagesCrawled : ℕ
  results : List String
  error : Option String
  deriving Repr, DecidableEq

/-- Python truthiness of the lowered keyword / text containment test
`kw.lower() in text_lower`: substring containment on the character lists. -/
def pyContains (hay needle : String) : Bool :=
  decide (needle.toList <:+: hay.toList)

/-- `str.lower()`. -/
def pyLower (s : String) : String := s.toLower

/-- `CrawlerManager._score_content(text, keywords)`:
empty keyword list scores `0.0` with no matches; otherwise the score is the
number of keywords occurring in the lowered text divided by the number of
keywords, together with the list of matched keywords. -/
def scoreContent (text : String) (keywords : List String) : ℚ × List String :=
  if keywords = [] then (0, [])
  else
    let textLower := pyLower text
    let matched := keywords.filter (fun kw => pyContains textLower (pyLower kw))
    (((matched.length : ℚ) / (keywords.length : ℚ)), matched)

/-- Whitespace test used for `\s` in `re.sub(r"\s+", " ", text)`.  Python's
`\s` matches Unicode whitespace; the ASCII whitespace predicate suffices for
the collapse/truncation properties proved here. -/
def isWs (c : Char) : Bool := c.isWhitespace

/-- `re.sub(r"\s+", " ", text)`: every maximal run of whitespace becomes a
single space.  The flag records whether we are inside a whitespace run. -/
def collapseRuns : Bool → List Char → List Char
  | _, [] => []
  | inRun, c :: cs =>
    if isWs c then
      if inRun then collapseRuns true cs else ' ' :: collapseRuns true cs
    else c :: collapseRuns false cs

/-- `str.lstrip()` on characters. -/
def lstrip (l : List Char) : List Char := l.dropWhile (fun c => isWs c)

/-- `str.rstrip()` on characters. -/
def rstrip (l : List Char) : List Char :=
  (l.reverse.dropWhile (fun c => isWs c)).reverse

/-- `re.sub(r"\s+", " ", text).strip()` — the `clean` value in
`CrawlerManager._build_excerpt`. -/
def collapseWs (s : String) : List Char :=
  rstrip (lstrip (collapseRuns false s.toList))

/-- `CrawlerManager._build_excerpt(text_content, max_length)`: the collapsed
text itself when short enough, else `clean[: max_length - 3].rstrip() + "..."`. -/
def buildExcerpt (textContent : String) (maxLength : ℕ) : List Char :=
  let clean := collapseWs textContent
  if clean.length ≤ maxLength then clean
  else rstrip (clean.take (maxLength - 3)) ++ ['.', '.', '.']

/-- `CrawlerStore` state: `max_memory_bytes`, the insertion-ordered
`_records : OrderedDict[str, CrawlResult]`, the `_sizes` dict and the
`_memory_usage` counter.  The spool directory and the asyncio lock carry no
state relevant to the claims. -/
structure CrawlerStore where
  maxMemoryBytes : ℤ
  records : Dict CrawlResult
  sizes : Dict ℕ
  memoryUsage : ℤ
  deriving Repr, DecidableEq

/-- A fresh store, as built by `CrawlerStore.__init__`. -/
def CrawlerStore.emptyStore (maxB : ℤ) : CrawlerStore :=
  { maxMemoryBytes := maxB, records := [], sizes := [], memoryUsage := 0 }

/-- Python truthiness of `result.content_hash` (`None` and `""` are falsy). -/
def hashTruthy : Option String → Bool
  | none => false
  | some h => !(h == "")

/-- The dedup scan `for existing_result in self._records.values(): if
existing_result.content_hash == result.content_hash: ...` — first live record
whose hash equals the given one (the source iterates over the values; the dict
key plays no role in the branch). -/
def findDup (records : Dict CrawlResult) (h : Option String) :
    Option CrawlResult :=
  (records.find? (fun p => p.2.contentHash == h)).map Prod.snd

/-- The `while self._memory_usage + required > self.max_memory_bytes and
self._records:` loop body of `CrawlerStore._ensure_capacity`: pop the
oldest-inserted record, drop its `_sizes` entry, and decrease `_memory_usage`
by the recorded size. -/
def evictLoop (maxB : ℤ) (required : ℕ) :
    Dict CrawlResult → Dict ℕ → ℤ → Dict CrawlResult × Dict ℕ × ℤ
  | [], sizes, usage => ([], sizes, usage)
  | (rid, r) :: rest, sizes, usage =>
    if maxB < usage + (required : ℤ) then
      evictLoop maxB required rest (dpop sizes rid) (usage - (dgetD sizes rid 0 : ℕ))
    else ((rid, r) :: rest, sizes, usage)

/-- `CrawlerStore._ensure_capacity(required)`: no-op for a non-positive bound,
else evict oldest-inserted records until the usage plus the required size fits
or the store is empty. -/
def CrawlerStore.ensureCapacity (s : CrawlerStore) (required : ℕ) : CrawlerStore :=
  if s.maxMemoryBytes ≤ 0 then s
  else
    let out := evictLoop s.maxMemoryBytes required s.records s.sizes s.memoryUsage
    { s with records := out.1, sizes := out.2.1, memoryUsage := out.2.2 }

/-- The non-duplicate tail of `CrawlerStore.add`: ensure capacity, then insert
the record and account for its size. -/
def CrawlerStore.insertFresh (s : CrawlerStore) (r : CrawlResult) (size : ℕ) :
    CrawlerStore :=
  let s₁ := s.ensureCapacity size
  { s₁ with
    records := dset s₁.records r.id r,
    sizes := dset s₁.sizes r.id size,
    memoryUsage := s₁.memoryUsage + (size : ℤ) }

/-- `CrawlerStore.add(result)`.  `size` is the byte length of the JSON dump
(the opaque `sizeOf`); the source assigns it to `result.size_bytes` before
inserting.  If the content hash is truthy and a live record shares it, the
record is replaced in place (under the existing dict key!) exactly when the
newcomer has strictly higher score or strictly newer `updated_at`, and
otherwise the call is a no-op; no capacity check happens on that path.
Otherwise the record is inserted after `_ensure_capacity`. -/
def CrawlerStore.add (s : CrawlerStore) (sizeOf : CrawlResult → ℕ)
    (r0 : CrawlResult) : CrawlerStore :=
  let size := sizeOf r0
  let r := { r0 with sizeBytes := size }
  if hashTruthy r.contentHash then
    match findDup s.records r.contentHash with
    | some e =>
      if e.score < r.score ∨ e.updatedAt < r.updatedAt then
        { s with
          records := dset s.records e.id r,
          sizes := dset s.sizes r.id size,
          memoryUsage := s.memoryUsage + ((size : ℤ) - (dgetD s.sizes e.id 0 : ℕ)) }
      else s
    | none => s.insertFresh r size
  else s.insertFresh r size

/-- `CrawlerStore.get(result_id)`: resident records only. -/
def CrawlerStore.get (s : CrawlerStore) (resultId : String) : Option CrawlResult :=
  dget s.records resultId

/-- `CrawlerStore.update(result)`: mutate only if resident, re-serializing and
adjusting `_sizes` and `_memory_usage` by the size delta; otherwise a no-op. -/
def CrawlerStore.update (s : CrawlerStore) (sizeOf : CrawlResult → ℕ)
    (r : CrawlResult) : CrawlerStore :=
  match dget s.records r.id with
  | some _ =>
    let size := sizeOf r
    { s with
      records := dset s.records r.id r,
      memoryUsage := s.memoryUsage + ((size : ℤ) - (dgetD s.sizes r.id 0 : ℕ)),
      sizes := dset s.sizes r.id size }
  | none => s

/-- `CrawlerStore.list(predicate)`: filter a snapshot of the resident records. -/
def CrawlerStore.listPred (s : CrawlerStore) (p : CrawlResult → Bool) :
    List CrawlResult :=
  (s.records.map Prod.snd).filter p

/-- Sum of `size_bytes` over a record dict. -/
def recSum (recs : Dict CrawlResult) : ℤ :=
  (recs.map (fun p => (p.2.sizeBytes : ℤ))).sum

/-- Sum of `size_bytes` over the resident records — the quantity bounded by the
store memory invariant. -/
def residentSum (s : CrawlerStore) : ℤ :=
  recSum s.records

/-- Bookkeeping consistency of a store: `_memory_usage` equals the sum of the
resident sizes, `_sizes` holds each resident record's `size_bytes` under its
key, and the record keys are pairwise distinct (as Python dict keys are).
These hold for every store reachable by fresh-path `add`s. -/
def storeWF (s : CrawlerStore) : Prop :=
  s.memoryUsage = recSum s.records ∧
  (∀ p ∈ s.records, dget s.sizes p.1 = some p.2.sizeBytes) ∧
  (s.records.map Prod.fst).Nodup

/-- In the Python source, the object returned by `CrawlerStore.get` is aliased
with the store's dict entry, so field assignments made by the manager are
immediately visible under the key the record was fetched from, independently of
the later `update` call.  `writeBack` makes that aliasing explicit. -/
def writeBack (s : CrawlerStore) (key : String) (r : CrawlResult) : CrawlerStore :=
  { s with records := dset s.records key r }

/-- `CrawlerManager.add_feedback(result_id, score, comment, confirmed, source)`:
returns `None` for a non-resident id; otherwise clamps the score into `[0,5]`,
appends the feedback, recomputes `rating_count` and `rating_average`, bumps
`confirmations` when confirmed, stamps `updated_at`, and stores the record. -/
def addFeedback (s : CrawlerStore) (sizeOf : CrawlResult → ℕ) (resultId : String)
    (score : ℚ) (comment : Option String) (confirmed : Bool) (source : String)
    (now : ℤ) : Option CrawlResult × CrawlerStore :=
  match s.get resultId with
  | none => (none, s)
  | some result =>
    let fb : CrawlFeedback :=
      { score := max 0 (min score 5), comment := comment, source := source,
        confirmed := confirmed, createdAt := now }
    let ratings := result.ratings ++ [fb]
    let result' := { result with
      ratings := ratings,
      ratingCount := ratings.length,
      ratingAverage := (ratings.map CrawlFeedback.score).sum / (max 1 (ratings.length : ℚ)),
      confirmations := result.confirmations + (if confirmed then 1 else 0),
      updatedAt := now }
    let s₁ := writeBack s resultId result'
    (some result', s₁.update sizeOf result')

/-- `CrawlerManager.mark_posted(result_id, post_id, topic_id)`: returns `None`
for a non-resident id; otherwise sets the publication markers and status and
stores the record. -/
def markPosted (s : CrawlerStore) (sizeOf : CrawlResult → ℕ) (resultId : String)
    (postId topicId : Option ℤ) (now : ℤ) : Option CrawlResult × CrawlerStore :=
  match s.get resultId with
  | none => (none, s)
  | some result =>
    let result' := { result with
      status := "published",
      postedAt := some now,
      postId := postId,
      topicId := topicId,
      updatedAt := now }
    let s₁ := writeBack s resultId result'
    (some result', s₁.update sizeOf result')

/-- The selection predicate built inside `CrawlerManager.ready_for_publication`
(timestamps in minutes; `cutoff = now - timedelta(minutes=min_age_minutes)`). -/
def pubPredicate (cutoff : ℤ) (r : CrawlResult) : Bool :=
  if r.status == "published" then false
  else if r.ratingCount < 2 then false
  else if r.ratingAverage < 4 then false
  else if r.confirmations < 1 then false
  else if cutoff < r.createdAt then false
  else true

/-- Stable insertion of a record into a score-descending list: the newcomer
goes before the first strictly smaller score and after equal scores seen so
far when used by `sortByScoreDesc` below, matching Python's stable
`list.sort(key=score, reverse=True)`. -/
def insertByScore (r : CrawlResult) : List CrawlResult → List CrawlResult
  | [] => [r]
  | x :: xs => if x.score ≤ r.score then r :: x :: xs else x :: insertByScore r xs

/-- Stable descending-by-score sort (`results.sort(key=..., reverse=True)`). -/
def sortByScoreDesc : List CrawlResult → List CrawlResult
  | [] => []
  | x :: xs => insertByScore x (sortByScoreDesc xs)

/-- `CrawlerManager.ready_for_publication(limit, min_age_minutes)`: filter the
resident records, sort by score descending, cap at `limit`. -/
def readyForPublication (s : CrawlerStore) (limit : ℕ) (minAgeMinutes now : ℤ) :
    List CrawlResult :=
  let cutoff := now - minAgeMinutes
  (sortByScoreDesc (s.listPred (pubPredicate cutoff))).take limit

/-- The spec's wording of the `ready_for_publication` selection: resident,
unpublished, `rating_count ≥ 2`, `rating_average ≥ 4.0`, `confirmations ≥ 1`,
`age ≥ min_age_minutes`. -/
def specReady (cutoff : ℤ) (r : CrawlResult) : Bool :=
  !(r.status == "published") && decide (2 ≤ r.ratingCount)
    && decide ((4 : ℚ) ≤ r.ratingAverage) && decide (1 ≤ r.confirmations)
    && decide (r.createdAt ≤ cutoff)

/-- A parsed robots policy: `RobotFileParser.can_fetch(USER_AGENT, url)` with
the user agent fixed by the module constant. -/
structure RobotsPolicy where
  canFetchUA : String → Bool

/-- Environment of `CrawlerManager._can_fetch`: `origin` is
`f"{parsed.scheme}://{parsed.netloc}"` of `urlparse`; `fetchRobots base` is the
outcome of GETting `base + "/robots.txt"` — `some p` for a 200 response parsed
into `p`, `none` for a non-200 response or a raised exception; `clientPresent`
is `self._client is not None`. -/
structure RobotsEnv where
  origin : String → String
  fetchRobots : String → Option RobotsPolicy
  clientPresent : Bool

/-- `self._robots_cache.get(base)` as the source consumes it: a stored `None`
(failed fetch) is indistinguishable from an absent key. -/
def lookupCollapsed (cache : Dict (Option RobotsPolicy)) (base : String) :
    Option RobotsPolicy :=
  match dget cache base with
  | some v => v
  | none => none

/-- Result of one `_can_fetch` call: the boolean answer, the updated robots
cache, and the robots.txt fetches issued by this call (by origin). -/
structure CanFetchOut where
  allowed : Bool
  cache : Dict (Option RobotsPolicy)
  fetchedOrigins : List String

/-- `CrawlerManager._can_fetch(url)`: consult the cache; on a miss (which
includes a cached `None`) and with a client available, fetch robots.txt and
cache the outcome (`None` on failure or non-200); answer with the parser if
one is at hand, else allow (fail-open). -/
def canFetch (env : RobotsEnv) (cache : Dict (Option RobotsPolicy))
    (url : String) : CanFetchOut :=
  let base := env.origin url
  match lookupCollapsed cache base, env.clientPresent with
  | some p, _ => ⟨p.canFetchUA url, cache, []⟩
  | none, true =>
    let res := env.fetchRobots base
    let cache' := dset cache base res
    match res with
    | some p => ⟨p.canFetchUA url, cache', [base]⟩
    | none => ⟨true, cache', [base]⟩
  | none, false => ⟨true, cache, []⟩

/-- A sequence of `_can_fetch` calls threading the robots cache, returning the
per-call answers paired with their urls, the final cache, and the concatenated
fetch log. -/
def runCanFetch (env : RobotsEnv) :
    Dict (Option RobotsPolicy) → List String →
    List (String × Bool) × Dict (Option RobotsPolicy) × List String
  | cache, [] => ([], cache, [])
  | cache, url :: rest =>
    let out := canFetch env cache url
    let tail := runCanFetch env out.cache rest
    ((url, out.allowed) :: tail.1, tail.2.1, out.fetchedOrigins ++ tail.2.2)

/-- The parsed document of a fetched page, as the worker loop consumes it.
`parseFails` models `BeautifulSoup(response.text, "html.parser")` raising — an
exception the source does not catch.  `text` is `_extract_text(soup)`;
`links` is the output of `_extract_links(url, soup, job)` (scheme and
domain filtering happens inside that helper). -/
structure PageDoc where
  parseFails : Bool
  text : String
  links : List String

/-- The outcome of `self._client.get(url)`: `fails` models a raised exception
(caught by the source), otherwise the status code and whether "text/html"
occurs in the Content-Type header. -/
structure FetchResult where
  fails : Bool
  statusCode : ℕ
  contentTypeHtml : Bool
  doc : PageDoc

/-- Deterministic environment of `CrawlerManager._process_job`: the politeness
gate's per-url answer, the fetch oracle, and a wall-clock reading (all
`datetime.now` calls abstracted to one value — no claim depends on distinct
readings).  `_store.add`, the training buffer and `_persist_job` do not feed
back into the traversal and are omitted from the loop state. -/
structure CrawlEnv where
  robotsAllows : String → Bool
  fetch : String → FetchResult
  now : ℤ

/-- Worker-loop state: the job being mutated in place, the FIFO frontier of
`(url, depth, parent_url)` triples, the visited set, and an instrumentation
trace of the urls actually fetched. -/
structure LoopState where
  job : CrawlJob
  queue : List (String × ℕ × Option String)
  visited : List String
  fetchLog : List String

/-- How `_process_job` can leave the loop: normal completion, an uncaught
exception propagating out (the job object keeps whatever state it had), or
fuel exhaustion (the loop is still mid-flight; used to observe intermediate
states). -/
inductive JobOutcome where
  | finished (st : LoopState)
  | aborted (st : LoopState)
  | outOfFuel (st : LoopState)

/-- The job state an outcome leaves behind. -/
def JobOutcome.state : JobOutcome → LoopState
  | .finished st => st
  | .aborted st => st
  | .outOfFuel st => st

/-- The epilogue after the `while` loop: status completed, stamps updated. -/
def completeJob (env : CrawlEnv) (st : LoopState) : LoopState :=
  { st with job := { st.job with
      status := "completed", completedAt := some env.now, updatedAt := env.now } }

/-- The `while queue and job.pages_crawled < job.max_pages:` loop of
`CrawlerManager._process_job`, one fuel unit per iteration.  Skips re-visits,
too-deep urls, politeness denials, fetch errors, non-2xx/3xx statuses and
non-HTML responses; a parse failure aborts (uncaught exception); otherwise the
page is scored, stored when relevant, counted, and its unseen links enqueued
one level deeper.  Result ids (uuid4) are abstracted by the page url in
`job.results`. -/
def processLoop (env : CrawlEnv) : ℕ → LoopState → JobOutcome
  | 0, st => .outOfFuel st
  | fuel + 1, st =>
    match st.queue with
    | [] => .finished (completeJob env st)
    | (url, depth, _parent) :: rest =>
      if st.job.pagesCrawled < st.job.maxPages then
        if url ∈ st.visited then processLoop env fuel { st with queue := rest }
        else
          let st₁ := { st with queue := rest, visited := url :: st.visited }
          if st.job.maxDepth < depth then processLoop env fuel st₁
          else if !(env.robotsAllows url) then processLoop env fuel st₁
          else
            let st₂ := { st₁ with fetchLog := st₁.fetchLog ++ [url] }
            let f := env.fetch url
            if f.fails then processLoop env fuel st₂
            else if 400 ≤ f.statusCode then processLoop env fuel st₂
            else if !f.contentTypeHtml then processLoop env fuel st₂
            else if f.doc.parseFails then .aborted st₂
            else
              let sc := scoreContent f.doc.text st.job.keywords
              let st₃ := if st.job.relevanceThreshold ≤ sc.1 then
                  { st₂ with job := { st₂.job with
                      results := st₂.job.results ++ [url] } }
                else st₂
              let st₄ := { st₃ with job := { st₃.job with
                  pagesCrawled := st₃.job.pagesCrawled + 1,
                  updatedAt := env.now } }
              let st₅ := if depth < st.job.maxDepth then
                  { st₄ with queue := st₄.queue ++
                      ((f.doc.links.filter (fun l => l ∉ st₄.visited)).map
                        (fun l => (l, depth + 1, some url))) }
                else st₄
              processLoop env fuel st₅
      else .finished (completeJob env st)

/-- The state `_process_job` enters its loop with: the job marked running and
the frontier seeded from `job.seeds` at depth 0. -/
def initLoopState (env : CrawlEnv) (job : CrawlJob) : LoopState :=
  { job := { job with status := "running", updatedAt := env.now },
    queue := job.seeds.map (fun sd => (sd, 0, none)),
    visited := [], fetchLog := [] }

/-- `CrawlerManager._process_job(job)`: mark the job running, seed the frontier
at depth 0, run the loop. -/
def processJob (env : CrawlEnv) (fuel : ℕ) (job : CrawlJob) : JobOutcome :=
  processLoop env fuel (initLoopState env job)

/-- Branch discriminator for `CrawlerStore.add`: `true` exactly when the call
takes the duplicate-replacement branch (a truthy hash, a live record with the
same hash, and a strictly better newcomer). -/
def replaceBranch (s : CrawlerStore) (r : CrawlResult) : Bool :=
  hashTruthy r.contentHash &&
    match findDup s.records r.contentHash with
    | some e => decide (e.score < r.score ∨ e.updatedAt < r.updatedAt)
    | none => false

/-- `true` exactly when `add` takes the fresh-insert path (falsy hash or no
live record with the same hash). -/
def freshBranch (s : CrawlerStore) (r : CrawlResult) : Bool :=
  !(hashTruthy r.contentHash) || (findDup s.records r.contentHash).isNone

/-- Left fold of `CrawlerStore.add` over a list of results. -/
def addAll (sizeOf : CrawlResult → ℕ) : CrawlerStore → List CrawlResult → CrawlerStore
  | s, [] => s
  | s, r :: rs => addAll sizeOf (s.add sizeOf r) rs

/-- An `add` sequence in which no call takes the duplicate-replacement branch
and every inserted id is fresh (as uuid4 ids are). -/
def addSeqOK (sizeOf : CrawlResult → ℕ) : CrawlerStore → List CrawlResult → Bool
  | _, [] => true
  | s, r :: rs =>
    !(replaceBranch s r) && (dget s.records r.id).isNone
      && addSeqOK sizeOf (s.add sizeOf r) rs

/-- A concrete `CrawlResult` used by witnesses and counterexamples. -/
def baseResult : CrawlResult :=
  { id := "r1", jobId := "j1", url := "http://a.test/", depth := 0,
    parentUrl := none, status := "pending", title := "t",
    summary := none, headline := none, content := "c", excerpt := "c",
    metaDescription := none, keywordsMatched := [], score := 0,
    publishDate := none, createdAt := 0, updatedAt := 0, ratings := [],
    ratingAverage := 0, ratingCount := 0, confirmations := 0, tags := [],
    spoolPath := none, sizeBytes := 0, postedAt := none, postId := none,
    topicId := none, normalizedText := none, contentHash := none,
    sourceDomain := some "a.test", labels := [], tokensEst := none }

/-- A concrete one-record store used by witnesses. -/
def baseStore : CrawlerStore :=
  { maxMemoryBytes := 1000, records := [("r1", baseResult)],
    sizes := [("r1", 100)], memoryUsage := 100 }

/-- A result with a perfect rating average but a single rating. -/
def lowRatedResult : CrawlResult :=
  { baseResult with ratingCount := 1, ratingAverage := 5, confirmations := 1 }

/-- A store holding only `lowRatedResult`. -/
def lowRatedStore : CrawlerStore :=
  { maxMemoryBytes := 1000, records := [("r1", lowRatedResult)],
    sizes := [("r1", 100)], memoryUsage := 100 }

/-- A robots environment in which every robots.txt fetch fails (exception or
non-200), with a single origin. -/
def failRobotsEnv : RobotsEnv :=
  { origin := fun _ => "http://x", fetchRobots := fun _ => none,
    clientPresent := true }

/-- A robots environment in which every robots.txt fetch succeeds with an
all-allowing policy, with a single origin. -/
def okRobotsEnv : RobotsEnv :=
  { origin := fun _ => "http://x",
    fetchRobots := fun _ => some { canFetchUA := fun _ => true },
    clientPresent := true }

/-- Invariant of the `_process_job` traversal loop: the page budget is
respected, no url was fetched twice, and every fetched url is in the visited
set. -/
def LoopInv (st : LoopState) : Prop :=
  st.job.pagesCrawled ≤ st.job.maxPages ∧ st.fetchLog.Nodup ∧
    ∀ u ∈ st.fetchLog, u ∈ st.visited

/-- A crawl environment in which every page fetch succeeds with HTML but the
HTML parse raises. -/
def parseFailEnv : CrawlEnv :=
  { robotsAllows := fun _ => true,
    fetch := fun _ =>
      { fails := false, statusCode := 200, contentTypeHtml := true,
        doc := { parseFails := true, text := "", links := [] } },
    now := 0 }

/-- A crawl environment in which every page fetch raises. -/
def fetchFailEnv : CrawlEnv :=
  { robotsAllows := fun _ => true,
    fetch := fun _ =>
      { fails := true, statusCode := 0, contentTypeHtml := false,
        doc := { parseFails := false, text := "", links := [] } },
    now := 0 }

/-- Results with fresh ids and no content hash, for the eviction scenario. -/
def recA : CrawlResult := { baseResult with id := "a" }

/-- Second record of the eviction scenario. -/
def recB : CrawlResult := { baseResult with id := "b" }

/-- Third record of the eviction scenario. -/
def recC : CrawlResult := { baseResult with id := "c" }

/-- A resident record carrying a truthy content hash. -/
def dupE : CrawlResult :=
  { baseResult with id := "e1", contentHash := some "h", score := 1 }

/-- A strictly better newcomer sharing `dupE`'s content hash. -/
def dupR : CrawlResult :=
  { baseResult with id := "r2", contentHash := some "h", score := 2 }

/-- A one-record store holding `dupE`. -/
def dupStore : CrawlerStore :=
  { maxMemoryBytes := 1000, records := [("e1", dupE)],
    sizes := [("e1", 50)], memoryUsage := 50 }

/-- A resident record with content hash `None`. -/
def nilHashE : CrawlResult := { baseResult with id := "e1", score := 1 }

/-- A strictly better newcomer, also with content hash `None`. -/
def nilHashR : CrawlResult := { baseResult with id := "r2", score := 2 }

/-- A one-record store holding `nilHashE`. -/
def nilHashStore : CrawlerStore :=
  { maxMemoryBytes := 1000, records := [("e1", nilHashE)],
    sizes := [("e1", 50)], memoryUsage := 50 }

/-- A freshly created single-seed job (fields as `create_job` builds them). -/
def sampleJob : CrawlJob :=
  { id := "j1", keywords := ["ai"], seeds := ["http://a.test/"], maxDepth := 0,
    maxPages := 1, allowedDomains := ["a.test"], allowExternal := false,
    relevanceThreshold := 35 / 100, rateLimit := 1, userContext := none,
    requestedBy := none, metadata := [], status := "queued", createdAt := 0,
    updatedAt := 0, completedAt := none, pagesCrawled := 0, results := [],
    error := none }

-- ===== THEOREMS BELOW =====

theorem dropWhile_exists_append {α : Type} (p : α → Bool) (l : List α) :
    ∃ s, l = s ++ l.dropWhile p := by
  induction l with
  | nil => exact ⟨[], rfl⟩
  | cons a l ih =>
    by_cases h : p a
    · obtain ⟨s, hs⟩ := ih
      exact ⟨a :: s, by simpa [List.dropWhile, h] using hs⟩
    · exact ⟨[], by simp [List.dropWhile, h]⟩

theorem rstrip_exists_append (l : List Char) : ∃ t, l = rstrip l ++ t := by
  obtain ⟨s, hs⟩ := dropWhile_exists_append (fun c => isWs c) l.reverse
  refine ⟨s.reverse, ?_⟩
  have := congrArg List.reverse hs
  simpa [rstrip] using this

theorem rstrip_length_le (l : List Char) : (rstrip l).length ≤ l.length := by
  obtain ⟨t, ht⟩ := rstrip_exists_append l
  conv_rhs => rw [ht]
  simp

@[simp]
theorem dget_dset_self {α : Type} (d : Dict α) (k : String) (v : α) :
    dget (dset d k v) k = some v := by
  induction d with
  | nil => simp [dset, dget]
  | cons p rest ih =>
    obtain ⟨k₀, v₀⟩ := p
    by_cases h : k₀ = k
    · simp [dset, dget, h]
    · simp [dset, dget, h, ih]

theorem dget_dset_ne {α : Type} (d : Dict α) (k k' : String) (v : α)
    (h : k' ≠ k) : dget (dset d k v) k' = dget d k' := by
  induction d with
  | nil => simp [dset, dget, Ne.symm h]
  | cons p rest ih =>
    obtain ⟨k₀, v₀⟩ := p
    by_cases h₀ : k₀ = k
    · subst h₀
      simp [dset, dget, h, Ne.symm h]
    · by_cases h₁ : k₀ = k'
      · simp [dset, dget, h₀, h₁, h]
      · simp [dset, dget, h₀, h₁, ih]

theorem dget_dpop_ne {α : Type} (d : Dict α) (k k' : String)
    (h : k' ≠ k) : dget (dpop d k) k' = dget d k' := by
  induction d with
  | nil => simp [dpop, dget]
  | cons p rest ih =>
    obtain ⟨k₀, v₀⟩ := p
    by_cases h₀ : k₀ = k
    · subst h₀
      simp [dpop, dget, Ne.symm h]
    · by_cases h₁ : k₀ = k'
      · simp [dpop, dget, h₀, h₁, h]
      · simp [dpop, dget, h₀, h₁, ih]

theorem dset_of_dget_none {α : Type} (d : Dict α) (k : String) (v : α)
    (h : dget d k = none) : dset d k v = d ++ [(k, v)] := by
  induction d with
  | nil => simp [dset]
  | cons p rest ih =>
    obtain ⟨k₀, v₀⟩ := p
    by_cases h₀ : k₀ = k
    · simp [dget, h₀] at h
    · simp [dget, h₀] at h
      simp [dset, h₀, ih h]

/-- C7: the relevance scorer returns `0.0` with an empty matched list for an
empty keyword list; otherwise it returns the number of keywords present in the
text as case-insensitive substrings divided by the number of keywords, a value
in `[0,1]`, together with exactly the matched keywords. -/
theorem C7_score_content (text : String) (keywords : List String)
    (h : keywords ≠ []) :
    scoreContent text [] = (0, []) ∧
    (scoreContent text keywords).1
      = (((scoreContent text keywords).2.length : ℚ) / (keywords.length : ℚ)) ∧
    0 ≤ (scoreContent text keywords).1 ∧
    (scoreContent text keywords).1 ≤ 1 ∧
    ∀ kw, kw ∈ (scoreContent text keywords).2 ↔
      kw ∈ keywords ∧ pyContains (pyLower text) (pyLower kw) = true := by
  refine ⟨by simp [scoreContent], ?_, ?_, ?_, ?_⟩
  · simp [scoreContent, h]
  · simp only [scoreContent, if_neg h]
    positivity
  · simp only [scoreContent, if_neg h]
    have hlen : 0 < (keywords.length : ℚ) := by
      have : 0 < keywords.length := List.length_pos.mpr h
      exact_mod_cast this
    rw [div_le_one hlen]
    exact_mod_cast List.length_filter_le _ _
  · intro kw
    simp [scoreContent, if_neg h, List.mem_filter]

/-- Witness for C7 at concrete inputs. -/
theorem C7_score_content_witness :
    0 ≤ (scoreContent "AI and Linux news" ["ai", "quantum"]).1 ∧
    (scoreContent "AI and Linux news" ["ai", "quantum"]).1 ≤ 1 :=
  ⟨(C7_score_content "AI and Linux news" ["ai", "quantum"] (by decide)).2.2.1,
   (C7_score_content "AI and Linux news" ["ai", "quantum"] (by decide)).2.2.2.1⟩

/-- C8: the excerpt builder returns the whitespace-collapsed text unchanged
when it has at most 420 characters, and otherwise a truncation of it (a prefix
of the collapsed text) ending in an ellipsis, of total length at most 420. -/
theorem C8_build_excerpt (text : String) :
    ((collapseWs text).length ≤ 420 → buildExcerpt text 420 = collapseWs text) ∧
    (420 < (collapseWs text).length →
      (∃ p t, collapseWs text = p ++ t ∧ buildExcerpt text 420 = p ++ ['.', '.', '.']) ∧
      (buildExcerpt text 420).length ≤ 420) := by
  constructor
  · intro h
    simp [buildExcerpt, h]
  · intro h
    have hnle : ¬ (collapseWs text).length ≤ 420 := by omega
    have hlen : (rstrip ((collapseWs text).take 417)).length ≤ 417 := by
      have h₁ := rstrip_length_le ((collapseWs text).take 417)
      have h₂ : ((collapseWs text).take 417).length ≤ 417 := by
        rw [List.length_take]; omega
      omega
    constructor
    · obtain ⟨t₁, ht₁⟩ := rstrip_exists_append ((collapseWs text).take 417)
      refine ⟨rstrip ((collapseWs text).take 417),
        t₁ ++ (collapseWs text).drop 417, ?_, ?_⟩
      · have h₂ : (collapseWs text).take 417 ++ (collapseWs text).drop 417
            = collapseWs text := List.take_append_drop _ _
        calc collapseWs text
            = (collapseWs text).take 417 ++ (collapseWs text).drop 417 := h₂.symm
          _ = (rstrip ((collapseWs text).take 417) ++ t₁)
                ++ (collapseWs text).drop 417 := by rw [← ht₁]
          _ = rstrip ((collapseWs text).take 417)
                ++ (t₁ ++ (collapseWs text).drop 417) := by
              rw [List.append_assoc]
      · simp [buildExcerpt, hnle]
    · simp only [buildExcerpt, if_neg hnle, List.length_append]
      simp only [show (420 : ℕ) - 3 = 417 from rfl]
      simp
      omega

set_option maxRecDepth 8000 in
/-- Witness for C8: a short text is returned collapsed and unchanged; a long
text is truncated to at most 420 characters ending in an ellipsis. -/
theorem C8_build_excerpt_witness :
    buildExcerpt "  AILinux   crawler  " 420 = "AILinux crawler".toList ∧
    (buildExcerpt (String.mk (List.replicate 430 'a')) 420).length ≤ 420 := by
  constructor
  · exact (C8_build_excerpt "  AILinux   crawler  ").1 (by decide)
  · exact ((C8_build_excerpt (String.mk (List.replicate 430 'a'))).2 (by decide)).2

/-- C10: `mark_posted` on a resident result sets only `status` (to
"published"), `posted_at`, `post_id`, `topic_id` and `updated_at`, leaves all
other fields of that result and every other resident record unchanged, and the
updated record is stored; on a non-resident id it returns `None` and leaves
the store unchanged. -/
theorem C10_mark_posted (s : CrawlerStore) (sizeOf : CrawlResult → ℕ)
    (resultId : String) (postId topicId : Option ℤ) (now : ℤ) :
    (s.get resultId = none →
      markPosted s sizeOf resultId postId topicId now = (none, s)) ∧
    (∀ r, s.get resultId = some r → r.id = resultId →
      ∃ r', (markPosted s sizeOf resultId postId topicId now).1 = some r' ∧
        (markPosted s sizeOf resultId postId topicId now).2.get resultId = some r' ∧
        r'.status = "published" ∧ r'.postedAt = some now ∧ r'.postId = postId ∧
        r'.topicId = topicId ∧ r'.updatedAt = now ∧
        r'.id = r.id ∧ r'.jobId = r.jobId ∧ r'.url = r.url ∧ r'.depth = r.depth ∧
        r'.parentUrl = r.parentUrl ∧ r'.title = r.title ∧ r'.summary = r.summary ∧
        r'.headline = r.headline ∧ r'.content = r.content ∧ r'.excerpt = r.excerpt ∧
        r'.metaDescription = r.metaDescription ∧
        r'.keywordsMatched = r.keywordsMatched ∧ r'.score = r.score ∧
        r'.publishDate = r.publishDate ∧ r'.createdAt = r.createdAt ∧
        r'.ratings = r.ratings ∧ r'.ratingAverage = r.ratingAverage ∧
        r'.ratingCount = r.ratingCount ∧ r'.confirmations = r.confirmations ∧
        r'.tags = r.tags ∧ r'.spoolPath = r.spoolPath ∧ r'.sizeBytes = r.sizeBytes ∧
        r'.normalizedText = r.normalizedText ∧ r'.contentHash = r.contentHash ∧
        r'.sourceDomain = r.sourceDomain ∧ r'.labels = r.labels ∧
        r'.tokensEst = r.tokensEst ∧
        (∀ k, k ≠ resultId →
          dget (markPosted s sizeOf resultId postId topicId now).2.records k
            = dget s.records k)) := by
  constructor
  · intro hnone
    simp [markPosted, hnone]
  · intro r hget hid
    have hget' : dget s.records resultId = some r := hget
    refine ⟨{ r with
      status := "published", postedAt := some now, postId := postId,
      topicId := topicId, updatedAt := now }, ?_, ?_,
      rfl, rfl, rfl, rfl, rfl, rfl, rfl, rfl, rfl, rfl, rfl, rfl, rfl, rfl, rfl,
      rfl, rfl, rfl, rfl, rfl, rfl, rfl, rfl, rfl, rfl, rfl, rfl, rfl, rfl, rfl,
      rfl, rfl, ?_⟩
    · simp [markPosted, CrawlerStore.get, hget']
    · simp [markPosted, CrawlerStore.update, writeBack, CrawlerStore.get, hget', hid,
        dget_dset_self]
    · intro k hk
      simp only [markPosted, CrawlerStore.update, writeBack, CrawlerStore.get,
        hget', hid, dget_dset_self]
      rw [dget_dset_ne _ _ _ _ hk, dget_dset_ne _ _ _ _ hk]

/-- Witness for C10 at concrete inputs: a missing id is a no-op returning
`None`, and marking the resident record stores it back. -/
theorem C10_mark_posted_witness :
    markPosted (CrawlerStore.emptyStore 10) (fun _ => 0) "missing" none none 0
      = (none, CrawlerStore.emptyStore 10) ∧
    ((markPosted baseStore (fun _ => 100) "r1" (some 7) (some 9) 50).2.get "r1").isSome
      = true := by
  constructor
  · exact (C10_mark_posted (CrawlerStore.emptyStore 10) (fun _ => 0) "missing"
      none none 0).1 rfl
  · obtain ⟨r', _, h₂, _⟩ :=
      (C10_mark_posted baseStore (fun _ => 100) "r1" (some 7) (some 9) 50).2
        baseResult rfl rfl
    rw [h₂]
    rfl

/-- C9: `add_feedback` on a non-resident id returns `None` and leaves the
store unchanged; on a resident result it appends the feedback with its score
clamped into `[0,5]`, after which `rating_count` equals the length of the
ratings list, `rating_average` is the arithmetic mean of the stored feedback
scores, and `confirmations` is incremented exactly when the feedback is
confirmed; the updated record is stored. -/
theorem C9_add_feedback (s : CrawlerStore) (sizeOf : CrawlResult → ℕ)
    (resultId : String) (score : ℚ) (comment : Option String) (confirmed : Bool)
    (source : String) (now : ℤ) :
    (s.get resultId = none →
      addFeedback s sizeOf resultId score comment confirmed source now = (none, s)) ∧
    (∀ r, s.get resultId = some r →
      ∃ r',
        (addFeedback s sizeOf resultId score comment confirmed source now).1
          = some r' ∧
        (addFeedback s sizeOf resultId score comment confirmed source now).2.get
          resultId = some r' ∧
        r'.ratings = r.ratings ++ [{
          score := max 0 (min score 5), comment := comment, source := source,
          confirmed := confirmed, createdAt := now }] ∧
        r'.ratingCount = r'.ratings.length ∧
        r'.ratingAverage
          = (r'.ratings.map CrawlFeedback.score).sum / (r'.ratings.length : ℚ) ∧
        r'.confirmations = r.confirmations + (if confirmed then 1 else 0) ∧
        0 ≤ max 0 (min score 5) ∧ max (0 : ℚ) (min score 5) ≤ 5) := by
  constructor
  · intro hnone
    simp [addFeedback, hnone]
  · intro r hget
    have hget' : dget s.records resultId = some r := hget
    have hlen : (1 : ℚ) ≤ ((r.ratings ++ [({
        score := max 0 (min score 5), comment := comment, source := source,
        confirmed := confirmed, createdAt := now } : CrawlFeedback)]).length : ℚ) := by
      have h₁ : 1 ≤ (r.ratings ++ [({
          score := max 0 (min score 5), comment := comment, source := source,
          confirmed := confirmed, createdAt := now } : CrawlFeedback)]).length := by
        simp
      exact_mod_cast h₁
    refine ⟨{ r with
      ratings := r.ratings ++ [{
        score := max 0 (min score 5), comment := comment, source := source,
        confirmed := confirmed, createdAt := now }],
      ratingCount := (r.ratings ++ [({
        score := max 0 (min score 5), comment := comment, source := source,
        confirmed := confirmed, createdAt := now } : CrawlFeedback)]).length,
      ratingAverage := ((r.ratings ++ [({
        score := max 0 (min score 5), comment := comment, source := source,
        confirmed := confirmed, createdAt := now } : CrawlFeedback)]).map
          CrawlFeedback.score).sum / (max 1 ((r.ratings ++ [({
        score := max 0 (min score 5), comment := comment, source := source,
        confirmed := confirmed, createdAt := now } : CrawlFeedback)]).length : ℚ)),
      confirmations := r.confirmations + (if confirmed then 1 else 0),
      updatedAt := now }, ?_, ?_, rfl, rfl, ?_, rfl, le_max_left 0 _,
      max_le (by norm_num) (min_le_right score 5)⟩
    · simp [addFeedback, CrawlerStore.get, hget']
    · by_cases hid : r.id = resultId
      · simp [addFeedback, CrawlerStore.update, writeBack, CrawlerStore.get, hget',
          hid, dget_dset_self]
      · rcases hmem : dget s.records r.id with _ | u
        · simp [addFeedback, CrawlerStore.update, writeBack, CrawlerStore.get, hget',
            dget_dset_self, dget_dset_ne _ _ _ _ hid, hmem]
        · simp [addFeedback, CrawlerStore.update, writeBack, CrawlerStore.get, hget',
            dget_dset_self, dget_dset_ne _ _ _ _ hid, hmem,
            dget_dset_ne _ _ _ _ (Ne.symm hid)]
    · simp [max_eq_right hlen]

/-- Witness for C9 at concrete inputs: feedback on a missing id is a no-op;
feedback on the resident record is stored with consistent rating fields. -/
theorem C9_add_feedback_witness :
    addFeedback (CrawlerStore.emptyStore 10) (fun _ => 0) "missing" 3 none true "mcp" 0
      = (none, CrawlerStore.emptyStore 10) ∧
    ∃ r', (addFeedback baseStore (fun _ => 100) "r1" 9 none true "mcp" 5).1 = some r' ∧
      r'.ratingCount = 1 := by
  constructor
  · exact (C9_add_feedback (CrawlerStore.emptyStore 10) (fun _ => 0) "missing" 3
      none true "mcp" 0).1 rfl
  · obtain ⟨r', h₁, _, h₃, h₄, _⟩ :=
      (C9_add_feedback baseStore (fun _ => 100) "r1" 9 none true "mcp" 5).2
        baseResult rfl
    refine ⟨r', h₁, ?_⟩
    rw [h₄, h₃]
    simp [baseResult]

theorem insertByScore_perm (r : CrawlResult) (l : List CrawlResult) :
    (insertByScore r l).Perm (r :: l) := by
  induction l with
  | nil => simp [insertByScore]
  | cons x xs ih =>
    simp only [insertByScore]
    by_cases h : x.score ≤ r.score
    · simp [h]
    · rw [if_neg h]
      exact (ih.cons x).trans (List.Perm.swap r x xs)

theorem insertByScore_sorted (r : CrawlResult) (l : List CrawlResult)
    (h : l.Pairwise (fun a b => b.score ≤ a.score)) :
    (insertByScore r l).Pairwise (fun a b => b.score ≤ a.score) := by
  induction l with
  | nil => simp [insertByScore]
  | cons x xs ih =>
    rw [List.pairwise_cons] at h
    obtain ⟨hx, hxs⟩ := h
    simp only [insertByScore]
    by_cases hc : x.score ≤ r.score
    · rw [if_pos hc]
      refine List.Pairwise.cons ?_ (List.Pairwise.cons hx hxs)
      intro b hb
      rcases List.mem_cons.mp hb with hb | hb
      · exact hb ▸ hc
      · exact le_trans (hx b hb) hc
    · rw [if_neg hc]
      refine List.Pairwise.cons ?_ (ih hxs)
      intro b hb
      rcases List.mem_cons.mp ((insertByScore_perm r xs).mem_iff.mp hb) with hb | hb
      · exact hb ▸ le_of_not_le hc
      · exact hx b hb

theorem sortByScoreDesc_perm (l : List CrawlResult) :
    (sortByScoreDesc l).Perm l := by
  induction l with
  | nil => simp [sortByScoreDesc]
  | cons x xs ih =>
    exact (insertByScore_perm x (sortByScoreDesc xs)).trans (ih.cons x)

theorem sortByScoreDesc_sorted (l : List CrawlResult) :
    (sortByScoreDesc l).Pairwise (fun a b => b.score ≤ a.score) := by
  induction l with
  | nil => simp [sortByScoreDesc]
  | cons x xs ih => exact insertByScore_sorted x _ ih

theorem pubPredicate_eq_specReady (cutoff : ℤ) (r : CrawlResult) :
    pubPredicate cutoff r = specReady cutoff r := by
  rw [Bool.eq_iff_iff]
  simp only [pubPredicate, specReady, Bool.and_eq_true, Bool.not_eq_true',
    decide_eq_true_eq, beq_eq_false_iff_ne]
  split_ifs with h₁ h₂ h₃ h₄ h₅
  · simp only [Bool.false_eq_true, false_iff]
    rintro ⟨⟨⟨⟨hs₁, _⟩, _⟩, _⟩, _⟩
    exact hs₁ (by simpa using h₁)
  · simp only [Bool.false_eq_true, false_iff]
    rintro ⟨⟨⟨⟨_, hs₂⟩, _⟩, _⟩, _⟩
    omega
  · simp only [Bool.false_eq_true, false_iff]
    rintro ⟨⟨⟨_, hs₃⟩, _⟩, _⟩
    exact absurd hs₃ (not_le.mpr h₃)
  · simp only [Bool.false_eq_true, false_iff]
    rintro ⟨⟨_, hs₄⟩, _⟩
    omega
  · simp only [Bool.false_eq_true, false_iff]
    rintro ⟨_, hs₅⟩
    omega
  · simp only [true_iff]
    refine ⟨⟨⟨⟨?_, ?_⟩, ?_⟩, ?_⟩, ?_⟩
    · simpa using h₁
    · omega
    · exact not_lt.mp h₃
    · omega
    · omega

/-- C6: `ready_for_publication` returns only resident records that are
unpublished, have `rating_count ≥ 2`, `rating_average ≥ 4.0`,
`confirmations ≥ 1` and age at least `min_age_minutes`; the output is capped
at `limit` and sorted by score descending, and when the qualifying records fit
within the cap the output is exactly the set of qualifying resident records —
in particular a record with `rating_count = 1` is never returned. -/
theorem C6_ready_for_publication (s : CrawlerStore) (limit : ℕ) (minAge now : ℤ) :
    (∀ r ∈ readyForPublication s limit minAge now,
      r.status ≠ "published" ∧ 2 ≤ r.ratingCount ∧ (4 : ℚ) ≤ r.ratingAverage ∧
      1 ≤ r.confirmations ∧ minAge ≤ now - r.createdAt) ∧
    (readyForPublication s limit minAge now).length ≤ limit ∧
    (readyForPublication s limit minAge now).Pairwise
      (fun a b => b.score ≤ a.score) ∧
    ((s.listPred (specReady (now - minAge))).length ≤ limit →
      ∀ r, r ∈ readyForPublication s limit minAge now ↔
        r ∈ s.listPred (specReady (now - minAge))) ∧
    readyForPublication s limit minAge now
      = (sortByScoreDesc (s.listPred (specReady (now - minAge)))).take limit := by
  have hfil : s.listPred (pubPredicate (now - minAge))
      = s.listPred (specReady (now - minAge)) := by
    unfold CrawlerStore.listPred
    exact List.filter_congr (fun r _ => pubPredicate_eq_specReady (now - minAge) r)
  refine ⟨?_, ?_, ?_, ?_, by rw [readyForPublication, hfil]⟩
  · intro r hr
    have hr₁ : r ∈ sortByScoreDesc (s.listPred (pubPredicate (now - minAge))) :=
      List.mem_of_mem_take hr
    have hr₂ : r ∈ s.listPred (pubPredicate (now - minAge)) :=
      (sortByScoreDesc_perm _).mem_iff.mp hr₁
    have hr₃ : specReady (now - minAge) r = true := by
      rw [hfil] at hr₂
      exact (List.mem_filter.mp hr₂).2
    simp only [specReady, Bool.and_eq_true, decide_eq_true_eq, Bool.not_eq_eq_eq_not,
      Bool.not_true, beq_eq_false_iff_ne] at hr₃
    obtain ⟨⟨⟨⟨hs₁, hs₂⟩, hs₃⟩, hs₄⟩, hs₅⟩ := hr₃
    exact ⟨hs₁, hs₂, hs₃, hs₄, by omega⟩
  · exact (List.length_take _ _).trans_le (min_le_left _ _)
  · exact (sortByScoreDesc_sorted _).sublist
      (List.take_sublist limit (sortByScoreDesc (s.listPred (pubPredicate (now - minAge)))))
  · intro hle r
    have hlen : (sortByScoreDesc (s.listPred (pubPredicate (now - minAge)))).length
        ≤ limit := by
      rw [(sortByScoreDesc_perm _).length_eq, hfil]
      exact hle
    unfold readyForPublication
    rw [List.take_of_length_le hlen, (sortByScoreDesc_perm _).mem_iff, hfil]

/-- Witness for C6: in a store whose single record has `rating_count = 1`
(and perfect average), nothing is ready for publication. -/
theorem C6_ready_for_publication_witness :
    readyForPublication lowRatedStore 10 60 1000 = [] := by
  have h := (C6_ready_for_publication lowRatedStore 10 60 1000).2.2.2.1 (by decide)
  have hempty : lowRatedStore.listPred (specReady (1000 - 60)) = [] := by decide
  rcases hout : readyForPublication lowRatedStore 10 60 1000 with _ | ⟨x, xs⟩
  · rfl
  · exfalso
    have hx := (h x).mp (by rw [hout]; exact List.mem_cons_self x xs)
    rw [hempty] at hx
    exact (List.not_mem_nil x) hx

theorem runCanFetch_failOpen (env : RobotsEnv) (urls : List String)
    (cache : Dict (Option RobotsPolicy))
    (hinv : ∀ b, env.fetchRobots b = none → lookupCollapsed cache b = none) :
    ∀ p ∈ (runCanFetch env cache urls).1,
      env.fetchRobots (env.origin p.1) = none → p.2 = true := by
  induction urls generalizing cache with
  | nil => simp [runCanFetch]
  | cons url rest ih =>
    intro p hp hfail
    rcases hl : lookupCollapsed cache (env.origin url) with _ | q
    · rcases hcp : env.clientPresent
      · simp only [runCanFetch, canFetch, hl, hcp, List.mem_cons] at hp
        rcases hp with hp | hp
        · rw [hp]
        · exact ih cache hinv p hp hfail
      · rcases hres : env.fetchRobots (env.origin url) with _ | q
        · simp only [runCanFetch, canFetch, hl, hcp, hres, List.mem_cons] at hp
          rcases hp with hp | hp
          · rw [hp]
          · refine ih (dset cache (env.origin url) none) ?_ p hp hfail
            intro b hb
            by_cases hbe : b = env.origin url
            · subst hbe
              simp [lookupCollapsed, dget_dset_self]
            · simpa [lookupCollapsed, dget_dset_ne _ _ _ _ hbe] using hinv b hb
        · simp only [runCanFetch, canFetch, hl, hcp, hres, List.mem_cons] at hp
          rcases hp with hp | hp
          · exfalso
            rw [hp] at hfail
            simp only at hfail
            rw [hfail] at hres
            exact Option.noConfusion hres
          · refine ih (dset cache (env.origin url) (some q)) ?_ p hp hfail
            intro b hb
            by_cases hbe : b = env.origin url
            · subst hbe
              rw [hb] at hres
              exact Option.noConfusion hres
            · simpa [lookupCollapsed, dget_dset_ne _ _ _ _ hbe] using hinv b hb
    · have : env.fetchRobots (env.origin url) ≠ none ∨ p ∈ (runCanFetch env cache rest).1 := by
        simp only [runCanFetch, canFetch, hl, List.mem_cons] at hp
        rcases hp with hp | hp
        · left
          intro hcon
          have := hinv (env.origin url) hcon
          rw [hl] at this
          exact Option.noConfusion this
        · exact Or.inr hp
      rcases this with hne | hmem
      · rcases hmem : p ∈ (runCanFetch env cache rest).1 with _
        · simp only [runCanFetch, canFetch, hl, List.mem_cons] at hp
          rcases hp with hp | hp
          · exfalso
            rw [hp] at hfail
            exact hne hfail
          · exact ih cache hinv p hp hfail
      · exact ih cache hinv p hmem hfail

theorem runCanFetch_count_once (env : RobotsEnv) (base : String)
    (q : RobotsPolicy) (hsucc : env.fetchRobots base = some q)
    (urls : List String) :
    ∀ cache : Dict (Option RobotsPolicy),
      ((lookupCollapsed cache base ≠ none →
        (runCanFetch env cache urls).2.2.count base = 0) ∧
      (runCanFetch env cache urls).2.2.count base ≤ 1) := by
  induction urls with
  | nil => intro cache; simp [runCanFetch]
  | cons url rest ih =>
    intro cache
    rcases hl : lookupCollapsed cache (env.origin url) with _ | p
    · rcases hcp : env.clientPresent
      · constructor
        · intro hne
          simp only [runCanFetch, canFetch, hl, hcp]
          exact (ih cache).1 hne
        · simp only [runCanFetch, canFetch, hl, hcp]
          exact (ih cache).2
      · rcases hbe : decide (env.origin url = base) with _ | _
        · have hbe' : env.origin url ≠ base := of_decide_eq_false hbe
          have hpres : lookupCollapsed (dset cache (env.origin url)
              (env.fetchRobots (env.origin url))) base = lookupCollapsed cache base := by
            simp [lookupCollapsed, dget_dset_ne _ _ _ _ (Ne.symm hbe')]
          rcases hres : env.fetchRobots (env.origin url) with _ | p₀ <;>
            constructor
          · intro hne
            simp only [runCanFetch, canFetch, hl, hcp, hres, List.count_cons,
              List.count_append]
            rw [hres] at hpres
            have h0 := ((ih (dset cache (env.origin url) none)).1 (by rw [hpres]; exact hne))
            simp only [List.count_cons] at h0 ⊢
            simp [h0, hbe']
          · simp only [runCanFetch, canFetch, hl, hcp, hres, List.count_cons]
            rw [hres] at hpres
            have h1 := (ih (dset cache (env.origin url) none)).2
            have hbf : ((env.origin url) == base) = false :=
              beq_eq_false_iff_ne.mpr hbe'
            simp [List.count_cons, hbf, h1]
          · intro hne
            simp only [runCanFetch, canFetch, hl, hcp, hres, List.count_cons]
            rw [hres] at hpres
            have h0 := ((ih (dset cache (env.origin url) (some p₀))).1
              (by rw [hpres]; exact hne))
            have hbf : ((env.origin url) == base) = false :=
              beq_eq_false_iff_ne.mpr hbe'
            simp [List.count_cons, hbf, h0]
          · simp only [runCanFetch, canFetch, hl, hcp, hres, List.count_cons]
            rw [hres] at hpres
            have h1 := (ih (dset cache (env.origin url) (some p₀))).2
            have hbf : ((env.origin url) == base) = false :=
              beq_eq_false_iff_ne.mpr hbe'
            simp [List.count_cons, hbf, h1]
        · have hbe' : env.origin url = base := of_decide_eq_true hbe
          subst hbe'
          constructor
          · intro hne
            exact absurd hl (by simpa using hne)
          · simp only [runCanFetch, canFetch, hl, hcp, hsucc, List.count_cons]
            have hcached : lookupCollapsed (dset cache (env.origin url) (some q))
                (env.origin url) ≠ none := by
              simp [lookupCollapsed, dget_dset_self]
            have h0 := (ih (dset cache (env.origin url) (some q))).1 hcached
            simp [h0]
    · constructor
      · intro hne
        simp only [runCanFetch, canFetch, hl]
        exact (ih cache).1 hne
      · simp only [runCanFetch, canFetch, hl]
        exact (ih cache).2

/-- C5 counterexample: with a robots environment in which the robots.txt fetch
for origin "http://x" always fails, two `_can_fetch` calls for the same origin
issue two robots fetches — the failed fetch is cached as `None`, which
`dict.get` cannot distinguish from an absent entry, so the origin is
re-fetched; "at most once per process lifetime, including after a failed
fetch" is false. -/
theorem C5_robots_counterexample :
    (runCanFetch failRobotsEnv [] ["http://x/a", "http://x/a"]).2.2
      = ["http://x", "http://x"] ∧
    ¬ ((runCanFetch failRobotsEnv [] ["http://x/a", "http://x/a"]).2.2.count
        "http://x" ≤ 1) := by
  constructor
  · rfl
  · decide

/-- C5 amended: an origin whose robots.txt fetch succeeds (HTTP 200) is
fetched at most once across any sequence of `_can_fetch` calls from a fresh
cache; and every call whose origin's robots fetch fails or returns non-200
answers `true` (fail-open).  (After a failed fetch the cached `None` is
indistinguishable from an absent entry, so such origins are re-fetched on
every call.) -/
theorem C5_robots_amended (env : RobotsEnv) (urls : List String) (base : String)
    (hsucc : (env.fetchRobots base).isSome = true) :
    (runCanFetch env [] urls).2.2.count base ≤ 1 ∧
    (∀ p ∈ (runCanFetch env [] urls).1,
      env.fetchRobots (env.origin p.1) = none → p.2 = true) := by
  constructor
  · obtain ⟨q, hq⟩ := Option.isSome_iff_exists.mp hsucc
    exact (runCanFetch_count_once env base q hq urls []).2
  · refine runCanFetch_failOpen env urls [] ?_
    intro b _
    rfl

/-- Witness for C5 at concrete inputs: a successfully fetched origin is
fetched at most once over two calls. -/
theorem C5_robots_amended_witness :
    (runCanFetch okRobotsEnv [] ["http://x/a", "http://x/b"]).2.2.count
      "http://x" ≤ 1 :=
  (C5_robots_amended okRobotsEnv ["http://x/a", "http://x/b"] "http://x" rfl).1

set_option maxHeartbeats 1000000 in
theorem processLoop_preserves (env : CrawlEnv) :
    ∀ (fuel : ℕ) (st : LoopState),
      (processLoop env fuel st).state.job.maxPages = st.job.maxPages ∧
      (processLoop env fuel st).state.job.error = st.job.error ∧
      ((processLoop env fuel st).state.job.status = st.job.status ∨
        (processLoop env fuel st).state.job.status = "completed") := by
  intro fuel
  induction fuel with
  | zero => intro st; exact ⟨rfl, rfl, Or.inl rfl⟩
  | succ n ih =>
    intro st
    rcases hq : st.queue with _ | ⟨⟨url, depth, parent⟩, rest⟩
    · simp only [processLoop, hq]
      exact ⟨rfl, rfl, Or.inr rfl⟩
    · simp only [processLoop, hq]
      by_cases hpage : st.job.pagesCrawled < st.job.maxPages
      · rw [if_pos hpage]
        by_cases hvis : url ∈ st.visited
        · rw [if_pos hvis]
          exact ih _
        · rw [if_neg hvis]
          by_cases hdep : st.job.maxDepth < depth
          · rw [if_pos hdep]
            exact ih _
          · rw [if_neg hdep]
            rcases hrob : env.robotsAllows url with _ | _
            · simp only [hrob, Bool.not_false, if_true]
              exact ih _
            · simp only [hrob, Bool.not_true, Bool.false_eq_true, if_false]
              rcases hf : (env.fetch url).fails with _ | _
              · simp only [hf, Bool.false_eq_true, if_false]
                by_cases hst : 400 ≤ (env.fetch url).statusCode
                · rw [if_pos hst]
                  exact ih _
                · rw [if_neg hst]
                  rcases hh : (env.fetch url).contentTypeHtml with _ | _
                  · simp only [hh, Bool.not_false, if_true]
                    exact ih _
                  · simp only [hh, Bool.not_true, Bool.false_eq_true, if_false]
                    rcases hp : (env.fetch url).doc.parseFails with _ | _
                    · simp only [hp, Bool.false_eq_true, if_false]
                      by_cases hrel : st.job.relevanceThreshold
                          ≤ (scoreContent (env.fetch url).doc.text st.job.keywords).1
                      · rw [if_pos hrel]
                        by_cases hd2 : depth < st.job.maxDepth
                        · rw [if_pos hd2]
                          exact ih _
                        · rw [if_neg hd2]
                          exact ih _
                      · rw [if_neg hrel]
                        by_cases hd2 : depth < st.job.maxDepth
                        · rw [if_pos hd2]
                          exact ih _
                        · rw [if_neg hd2]
                          exact ih _
                    · simp only [hp, if_true]
                      exact ⟨rfl, rfl, Or.inl rfl⟩
              · simp only [hf, if_true]
                exact ih _
      · rw [if_neg hpage]
        exact ⟨rfl, rfl, Or.inr rfl⟩

set_option maxHeartbeats 1000000 in
theorem processLoop_LoopInv (env : CrawlEnv) :
    ∀ (fuel : ℕ) (st : LoopState), LoopInv st →
      LoopInv (processLoop env fuel st).state := by
  intro fuel
  induction fuel with
  | zero => intro st h; exact h
  | succ n ih =>
    intro st h
    obtain ⟨h1, h2, h3⟩ := h
    rcases hq : st.queue with _ | ⟨⟨url, depth, parent⟩, rest⟩
    · simp only [processLoop, hq]
      exact ⟨h1, h2, h3⟩
    · simp only [processLoop, hq]
      by_cases hpage : st.job.pagesCrawled < st.job.maxPages
      · rw [if_pos hpage]
        by_cases hvis : url ∈ st.visited
        · rw [if_pos hvis]
          exact ih _ ⟨h1, h2, h3⟩
        · rw [if_neg hvis]
          have hsub : ∀ u ∈ st.fetchLog, u ∈ url :: st.visited :=
            fun u hu => List.mem_cons_of_mem _ (h3 u hu)
          have hlog : (st.fetchLog ++ [url]).Nodup := by
            rw [List.nodup_append]
            refine ⟨h2, List.nodup_singleton url, ?_⟩
            intro u hu hmemu
            rcases List.mem_singleton.mp hmemu with rfl
            exact hvis (h3 u hu)
          have hsub₂ : ∀ u ∈ st.fetchLog ++ [url], u ∈ url :: st.visited := by
            intro u hu
            rcases List.mem_append.mp hu with hu | hu
            · exact hsub u hu
            · rcases List.mem_singleton.mp hu with rfl
              exact List.mem_cons_self _ _
          by_cases hdep : st.job.maxDepth < depth
          · rw [if_pos hdep]
            exact ih _ ⟨h1, h2, hsub⟩
          · rw [if_neg hdep]
            rcases hrob : env.robotsAllows url with _ | _
            · simp only [hrob, Bool.not_false, if_true]
              exact ih _ ⟨h1, h2, hsub⟩
            · simp only [hrob, Bool.not_true, Bool.false_eq_true, if_false]
              rcases hf : (env.fetch url).fails with _ | _
              · simp only [hf, Bool.false_eq_true, if_false]
                by_cases hst : 400 ≤ (env.fetch url).statusCode
                · rw [if_pos hst]
                  exact ih _ ⟨h1, hlog, hsub₂⟩
                · rw [if_neg hst]
                  rcases hh : (env.fetch url).contentTypeHtml with _ | _
                  · simp only [hh, Bool.not_false, if_true]
                    exact ih _ ⟨h1, hlog, hsub₂⟩
                  · simp only [hh, Bool.not_true, Bool.false_eq_true, if_false]
                    rcases hp : (env.fetch url).doc.parseFails with _ | _
                    · simp only [hp, Bool.false_eq_true, if_false]
                      have hpages : st.job.pagesCrawled + 1 ≤ st.job.maxPages := hpage
                      by_cases hrel : st.job.relevanceThreshold
                          ≤ (scoreContent (env.fetch url).doc.text st.job.keywords).1
                      · rw [if_pos hrel]
                        by_cases hd2 : depth < st.job.maxDepth
                        · rw [if_pos hd2]
                          exact ih _ ⟨hpages, hlog, hsub₂⟩
                        · rw [if_neg hd2]
                          exact ih _ ⟨hpages, hlog, hsub₂⟩
                      · rw [if_neg hrel]
                        by_cases hd2 : depth < st.job.maxDepth
                        · rw [if_pos hd2]
                          exact ih _ ⟨hpages, hlog, hsub₂⟩
                        · rw [if_neg hd2]
                          exact ih _ ⟨hpages, hlog, hsub₂⟩
                    · simp only [hp, if_true]
                      exact ⟨h1, hlog, hsub₂⟩
              · simp only [hf, if_true]
                exact ih _ ⟨h1, hlog, hsub₂⟩
      · rw [if_neg hpage]
        exact ⟨h1, h2, h3⟩

/-- C3: for every job entering the worker loop with a zeroed page counter and
every environment, at every point during and after processing,
`pages_crawled` never exceeds `max_pages` and no url is fetched twice (the
fetch trace has no duplicates). -/
theorem C3_page_budget_no_refetch (env : CrawlEnv) (fuel : ℕ) (job : CrawlJob)
    (h0 : job.pagesCrawled = 0) :
    (processJob env fuel job).state.job.pagesCrawled ≤ job.maxPages ∧
    (processJob env fuel job).state.fetchLog.Nodup := by
  have hinit : LoopInv (initLoopState env job) := by
    refine ⟨?_, List.nodup_nil, ?_⟩
    · show job.pagesCrawled ≤ job.maxPages
      rw [h0]
      exact Nat.zero_le _
    · intro u hu
      exact absurd hu (List.not_mem_nil u)
  have hinv := processLoop_LoopInv env fuel _ hinit
  have hmax := (processLoop_preserves env fuel (initLoopState env job)).1
  refine ⟨?_, hinv.2.1⟩
  calc (processJob env fuel job).state.job.pagesCrawled
      ≤ (processLoop env fuel (initLoopState env job)).state.job.maxPages := hinv.1
    _ = job.maxPages := hmax

/-- Witness for C3 at concrete inputs. -/
theorem C3_page_budget_no_refetch_witness :
    (processJob fetchFailEnv 3 sampleJob).state.job.pagesCrawled
      ≤ sampleJob.maxPages ∧
    (processJob fetchFailEnv 3 sampleJob).state.fetchLog.Nodup :=
  C3_page_budget_no_refetch fetchFailEnv 3 sampleJob rfl

/-- C4: the claim's page-level half holds only for fetch errors — a raised
page fetch is skipped and the job still completes — but its other halves are
contradicted by the code: an HTML parse error is not skipped (it aborts the
job), and no exception ever sets the job status to "failed" or records an
error string; the job is left in status "running" with `error = None`, in
contradiction with the spec's error taxonomy (c) and the dataclass's own
`error` field and the "failed"-status consumers in `chat.py` and
`admin_crawler.py`. -/
theorem C4_error_handling_code_bug :
    ((processJob parseFailEnv 5 sampleJob).state.job.status = "running" ∧
      (processJob parseFailEnv 5 sampleJob).state.job.status ≠ "failed" ∧
      (processJob parseFailEnv 5 sampleJob).state.job.error = none ∧
      (∃ st, processJob parseFailEnv 5 sampleJob = JobOutcome.aborted st)) ∧
    ((processJob fetchFailEnv 5 sampleJob).state.job.status = "completed" ∧
      (processJob fetchFailEnv 5 sampleJob).state.job.pagesCrawled = 0) ∧
    (∀ (env : CrawlEnv) (fuel : ℕ) (job : CrawlJob),
      (processJob env fuel job).state.job.error = job.error) := by
  refine ⟨⟨rfl, by decide, rfl, ⟨_, rfl⟩⟩, ⟨rfl, rfl⟩, ?_⟩
  intro env fuel job
  exact (processLoop_preserves env fuel _).2.1

theorem not_mem_keys_of_dget_none {α : Type} (d : Dict α) (k : String)
    (h : dget d k = none) : k ∉ d.map Prod.fst := by
  induction d with
  | nil => simp
  | cons p rest ih =>
    obtain ⟨k₀, v₀⟩ := p
    by_cases h₀ : k₀ = k
    · rw [dget, if_pos h₀] at h
      exact Option.noConfusion h
    · rw [dget, if_neg h₀] at h
      simp only [List.map_cons, List.mem_cons]
      rintro (he | he)
      · exact h₀ he.symm
      · exact ih h he

theorem dget_of_mem_nodup {α : Type} (d : Dict α) (p : String × α)
    (hmem : p ∈ d) (hnd : (d.map Prod.fst).Nodup) : dget d p.1 = some p.2 := by
  induction d with
  | nil => exact absurd hmem (List.not_mem_nil p)
  | cons q rest ih =>
    obtain ⟨k₀, v₀⟩ := q
    rw [List.map_cons, List.nodup_cons] at hnd
    rcases List.mem_cons.mp hmem with he | hmem'
    · subst he
      simp [dget]
    · have hne : k₀ ≠ p.1 := by
        intro he
        apply hnd.1
        rw [he]
        exact List.mem_map.mpr ⟨p, hmem', rfl⟩
      rw [dget, if_neg hne]
      exact ih hmem' hnd.2

theorem recSum_cons (p : String × CrawlResult) (rest : Dict CrawlResult) :
    recSum (p :: rest) = (p.2.sizeBytes : ℤ) + recSum rest := by
  simp [recSum]

theorem recSum_append_single (l : Dict CrawlResult) (k : String) (r : CrawlResult) :
    recSum (l ++ [(k, r)]) = recSum l + (r.sizeBytes : ℤ) := by
  simp [recSum]

theorem evictLoop_spec (maxB : ℤ) (required : ℕ) :
    ∀ (recs : Dict CrawlResult) (sizes : Dict ℕ) (usage : ℤ),
      (∀ p ∈ recs, dget sizes p.1 = some p.2.sizeBytes) →
      ((recs.map Prod.fst).Nodup) →
      usage = recSum recs →
      ((∀ p ∈ (evictLoop maxB required recs sizes usage).1,
          dget (evictLoop maxB required recs sizes usage).2.1 p.1
            = some p.2.sizeBytes) ∧
        ((evictLoop maxB required recs sizes usage).1.map Prod.fst).Nodup ∧
        (evictLoop maxB required recs sizes usage).2.2
          = recSum (evictLoop maxB required recs sizes usage).1 ∧
        ((evictLoop maxB required recs sizes usage).2.2 + (required : ℤ) ≤ maxB ∨
          (evictLoop maxB required recs sizes usage).1 = []) ∧
        (∀ k, dget recs k = none →
          dget (evictLoop maxB required recs sizes usage).1 k = none)) := by
  intro recs
  induction recs with
  | nil =>
    intro sizes usage hsz hnd husage
    simp only [evictLoop]
    exact ⟨fun p hp => absurd hp (List.not_mem_nil p), by simp, husage,
      by simp, fun k _ => rfl⟩
  | cons p rest ih =>
    obtain ⟨rid, r⟩ := p
    intro sizes usage hsz hnd husage
    rw [List.map_cons, List.nodup_cons] at hnd
    by_cases hcap : maxB < usage + (required : ℤ)
    · have hhead : dget sizes rid = some r.sizeBytes :=
        hsz (rid, r) (List.mem_cons_self _ _)
      have hgd : dgetD sizes rid 0 = r.sizeBytes := by simp [dgetD, hhead]
      have hsz' : ∀ q ∈ rest, dget (dpop sizes rid) q.1 = some q.2.sizeBytes := by
        intro q hq
        have hne : q.1 ≠ rid := by
          intro he
          apply hnd.1
          rw [← he]
          exact List.mem_map.mpr ⟨q, hq, rfl⟩
        rw [dget_dpop_ne _ _ _ hne]
        exact hsz q (List.mem_cons_of_mem _ hq)
      have hcsum : recSum ((rid, r) :: rest) = (r.sizeBytes : ℤ) + recSum rest :=
        recSum_cons _ _
      have husage' : usage - (dgetD sizes rid 0 : ℕ) = recSum rest := by
        rw [hgd, husage, hcsum]
        ring
      simp only [evictLoop, if_pos hcap]
      obtain ⟨a, b, c, d, e⟩ :=
        ih (dpop sizes rid) (usage - (dgetD sizes rid 0 : ℕ)) hsz' hnd.2 husage'
      refine ⟨a, b, c, d, ?_⟩
      intro k hk
      have hne : ¬ rid = k := by
        intro he
        rw [dget, if_pos he] at hk
        exact Option.noConfusion hk
      rw [dget, if_neg hne] at hk
      exact e k hk
    · simp only [evictLoop, if_neg hcap]
      refine ⟨hsz, by rw [List.map_cons, List.nodup_cons]; exact hnd, husage,
        Or.inl (by omega), fun k hk => hk⟩

theorem insertFresh_spec (s : CrawlerStore) (r : CrawlResult) (size : ℕ)
    (hWF : storeWF s) (hid : dget s.records r.id = none)
    (hrs : r.sizeBytes = size)
    (hpos : 0 < s.maxMemoryBytes) (hbd : (size : ℤ) ≤ s.maxMemoryBytes) :
    storeWF (s.insertFresh r size) ∧
    recSum (s.insertFresh r size).records ≤ s.maxMemoryBytes ∧
    (s.insertFresh r size).maxMemoryBytes = s.maxMemoryBytes ∧
    dget (s.insertFresh r size).records r.id = some r := by
  obtain ⟨hmu, hsz, hnd⟩ := hWF
  have hns : ¬ s.maxMemoryBytes ≤ 0 := not_le.mpr hpos
  obtain ⟨a, b, c, d, e⟩ :=
    evictLoop_spec s.maxMemoryBytes size s.records s.sizes s.memoryUsage hsz hnd hmu
  have hid' : dget (evictLoop s.maxMemoryBytes size s.records s.sizes
      s.memoryUsage).1 r.id = none := e r.id hid
  have hkeys : r.id ∉ (evictLoop s.maxMemoryBytes size s.records s.sizes
      s.memoryUsage).1.map Prod.fst := not_mem_keys_of_dget_none _ _ hid'
  have happ : dset (evictLoop s.maxMemoryBytes size s.records s.sizes
        s.memoryUsage).1 r.id r
      = (evictLoop s.maxMemoryBytes size s.records s.sizes s.memoryUsage).1
        ++ [(r.id, r)] := dset_of_dget_none _ _ _ hid'
  have hs₁ : s.insertFresh r size = { s with
      records := dset (evictLoop s.maxMemoryBytes size s.records s.sizes
        s.memoryUsage).1 r.id r,
      sizes := dset (evictLoop s.maxMemoryBytes size s.records s.sizes
        s.memoryUsage).2.1 r.id size,
      memoryUsage := (evictLoop s.maxMemoryBytes size s.records s.sizes
        s.memoryUsage).2.2 + (size : ℤ) } := by
    simp only [CrawlerStore.insertFresh, CrawlerStore.ensureCapacity, if_neg hns]
  have hsum : recSum (dset (evictLoop s.maxMemoryBytes size s.records s.sizes
        s.memoryUsage).1 r.id r)
      = (evictLoop s.maxMemoryBytes size s.records s.sizes s.memoryUsage).2.2
        + (size : ℤ) := by
    rw [happ, recSum_append_single, ← c, hrs]
  refine ⟨⟨?_, ?_, ?_⟩, ?_, ?_, ?_⟩
  · rw [hs₁]
    exact hsum.symm
  · rw [hs₁]
    intro p hp
    rw [happ] at hp
    rcases List.mem_append.mp hp with hp | hp
    · have hne : p.1 ≠ r.id := by
        intro he
        have := dget_of_mem_nodup _ p hp b
        rw [he, hid'] at this
        exact Option.noConfusion this
      rw [dget_dset_ne _ _ _ _ hne]
      exact a p hp
    · rcases List.mem_singleton.mp hp with rfl
      rw [dget_dset_self, hrs]
  · rw [hs₁]
    simp only
    rw [happ, List.map_append, List.nodup_append]
    refine ⟨b, by simp, ?_⟩
    intro x hx₁ hx₂
    simp only [List.map_cons, List.map_nil, List.mem_singleton] at hx₂
    exact hkeys (hx₂ ▸ hx₁)
  · rw [hs₁]
    simp only
    rw [hsum]
    rcases d with d | d
    · exact d
    · rw [d] at c
      simp [recSum] at c
      rw [c]
      simpa using hbd
  · rw [hs₁]
  · rw [hs₁]
    simp only
    rw [dget_dset_self]

theorem add_step (s : CrawlerStore) (sizeOf : CrawlResult → ℕ) (r : CrawlResult)
    (hWF : storeWF s) (hbound : recSum s.records ≤ s.maxMemoryBytes)
    (hpos : 0 < s.maxMemoryBytes)
    (hrep : replaceBranch s r = false) (hid : dget s.records r.id = none)
    (hszb : (sizeOf r : ℤ) ≤ s.maxMemoryBytes) :
    storeWF (s.add sizeOf r) ∧
    recSum (s.add sizeOf r).records ≤ s.maxMemoryBytes ∧
    (s.add sizeOf r).maxMemoryBytes = s.maxMemoryBytes := by
  rcases htr : hashTruthy r.contentHash with _ | _
  · have heq : s.add sizeOf r
        = s.insertFresh { r with sizeBytes := sizeOf r } (sizeOf r) := by
      simp only [CrawlerStore.add, htr, Bool.false_eq_true, if_false]
    rw [heq]
    obtain ⟨w1, w2, w3, _⟩ := insertFresh_spec s { r with sizeBytes := sizeOf r }
      (sizeOf r) hWF hid rfl hpos hszb
    exact ⟨w1, w2, w3⟩
  · rcases hfd : findDup s.records r.contentHash with _ | e
    · have heq : s.add sizeOf r
          = s.insertFresh { r with sizeBytes := sizeOf r } (sizeOf r) := by
        simp only [CrawlerStore.add, htr, if_true, hfd]
      rw [heq]
      obtain ⟨w1, w2, w3, _⟩ := insertFresh_spec s { r with sizeBytes := sizeOf r }
        (sizeOf r) hWF hid rfl hpos hszb
      exact ⟨w1, w2, w3⟩
    · have hcond : ¬ (e.score < r.score ∨ e.updatedAt < r.updatedAt) := by
        have h := hrep
        simp only [replaceBranch, htr, hfd, Bool.true_and] at h
        exact of_decide_eq_false h
      have heq : s.add sizeOf r = s := by
        simp only [CrawlerStore.add, htr, if_true, hfd]
        rw [if_neg hcond]
      rw [heq]
      exact ⟨hWF, hbound, rfl⟩

theorem addAll_bound (sizeOf : CrawlResult → ℕ) :
    ∀ (rs : List CrawlResult) (s : CrawlerStore),
      storeWF s → recSum s.records ≤ s.maxMemoryBytes → 0 < s.maxMemoryBytes →
      addSeqOK sizeOf s rs = true →
      (∀ r ∈ rs, (sizeOf r : ℤ) ≤ s.maxMemoryBytes) →
      storeWF (addAll sizeOf s rs) ∧
      recSum (addAll sizeOf s rs).records ≤ s.maxMemoryBytes ∧
      (addAll sizeOf s rs).maxMemoryBytes = s.maxMemoryBytes := by
  intro rs
  induction rs with
  | nil =>
    intro s h1 h2 _ _ _
    exact ⟨h1, h2, rfl⟩
  | cons r rest ih =>
    intro s h1 h2 h3 hok hsz
    rw [addSeqOK, Bool.and_eq_true, Bool.and_eq_true] at hok
    obtain ⟨⟨hrep, hidn⟩, hok'⟩ := hok
    have hrep' : replaceBranch s r = false := by
      simpa using hrep
    have hid : dget s.records r.id = none := by
      simpa [Option.isNone_iff_eq_none] using hidn
    obtain ⟨w1, w2, w3⟩ := add_step s sizeOf r h1 h2 h3 hrep' hid
      (hsz r (List.mem_cons_self _ _))
    have h2' : recSum (s.add sizeOf r).records ≤ (s.add sizeOf r).maxMemoryBytes := by
      rw [w3]
      exact w2
    have h3' : 0 < (s.add sizeOf r).maxMemoryBytes := by
      rw [w3]
      exact h3
    have hsz' : ∀ x ∈ rest, (sizeOf x : ℤ) ≤ (s.add sizeOf r).maxMemoryBytes := by
      rw [w3]
      intro x hx
      exact hsz x (List.mem_cons_of_mem _ hx)
    obtain ⟨u1, u2, u3⟩ := ih (s.add sizeOf r) w1 h2' h3' hok' hsz'
    have hstep : addAll sizeOf s (r :: rest) = addAll sizeOf (s.add sizeOf r) rest := rfl
    rw [hstep]
    exact ⟨u1, u2.trans (le_of_eq w3), u3.trans w3⟩

/-- C1 counterexample: with `max_memory_bytes = 10 > 0`, a single `add` of a
record whose serialization is 20 bytes leaves the resident `size_bytes` sum at
20 > 10 — `_ensure_capacity` stops evicting once the store is empty and the
record is inserted regardless, so the claimed invariant is false as stated.
(The duplicate-replacement branch of `add`, which skips `_ensure_capacity`
entirely, violates it as well.) -/
theorem C1_store_bound_counterexample :
    (0 : ℤ) < 10 ∧
    ¬ (residentSum (CrawlerStore.add (CrawlerStore.emptyStore 10)
        (fun _ => 20) baseResult) ≤ 10) := by
  constructor
  · decide
  · decide

/-- C1 amended: for a positive `max_memory_bytes`, after any sequence of `add`
calls in which every record's serialized size is at most the bound, no call
takes the duplicate-replacement branch, and ids are fresh, the sum of
`size_bytes` over resident records is at most `max_memory_bytes`; moreover on
the fresh path the newly inserted record is always resident immediately after
its own insertion (it is never evicted by the insertion that adds it). -/
theorem C1_store_bound_amended (maxB : ℤ) (sizeOf : CrawlResult → ℕ)
    (rs : List CrawlResult) (hpos : 0 < maxB)
    (hsz : ∀ r ∈ rs, (sizeOf r : ℤ) ≤ maxB)
    (hok : addSeqOK sizeOf (CrawlerStore.emptyStore maxB) rs = true) :
    residentSum (addAll sizeOf (CrawlerStore.emptyStore maxB) rs) ≤ maxB ∧
    ∀ (s : CrawlerStore) (r : CrawlResult), freshBranch s r = true →
      dget (s.add sizeOf r).records r.id
        = some { r with sizeBytes := sizeOf r } := by
  constructor
  · have hWF : storeWF (CrawlerStore.emptyStore maxB) := by
      refine ⟨by simp [CrawlerStore.emptyStore, recSum], ?_, by simp [CrawlerStore.emptyStore]⟩
      intro p hp
      exact absurd hp (List.not_mem_nil p)
    have hb : recSum (CrawlerStore.emptyStore maxB).records ≤
        (CrawlerStore.emptyStore maxB).maxMemoryBytes := by
      simp [CrawlerStore.emptyStore, recSum]
      omega
    exact (addAll_bound sizeOf rs (CrawlerStore.emptyStore maxB) hWF hb hpos hok hsz).2.1
  · intro s r hfb
    rw [freshBranch, Bool.or_eq_true, Bool.not_eq_true'] at hfb
    rcases hfb with hfb | hfb
    · simp only [CrawlerStore.add, hfb, Bool.false_eq_true, if_false,
        CrawlerStore.insertFresh]
      rw [dget_dset_self]
    · have hfd : findDup s.records r.contentHash = none :=
        Option.isNone_iff_eq_none.mp hfb
      rcases htr : hashTruthy r.contentHash with _ | _
      · simp only [CrawlerStore.add, htr, Bool.false_eq_true, if_false,
          CrawlerStore.insertFresh]
        rw [dget_dset_self]
      · simp only [CrawlerStore.add, htr, if_true, hfd, CrawlerStore.insertFresh]
        rw [dget_dset_self]

/-- Witness for C1 (the spec §8 scenario): max 1000 bytes, three 400-byte
records — after the third insertion the resident sum is within the bound. -/
theorem C1_store_bound_amended_witness :
    residentSum (addAll (fun _ => 400) (CrawlerStore.emptyStore 1000)
      [recA, recB, recC]) ≤ 1000 :=
  (C1_store_bound_amended 1000 (fun _ => 400) [recA, recB, recC] (by decide)
    (by decide) (by decide)).1

theorem find?_eq_some_of_unique {α : Type} (q : α → Bool) :
    ∀ (l : List α) (x : α), x ∈ l → q x = true →
      (∀ y ∈ l, q y = true → y = x) → l.find? q = some x := by
  intro l
  induction l with
  | nil =>
    intro x hx _ _
    exact absurd hx (List.not_mem_nil x)
  | cons a t ih =>
    intro x hx hqx huniq
    rcases ha : q a with _ | _
    · rw [List.find?_cons_of_neg _ (by simp [ha])]
      have hxt : x ∈ t := by
        rcases List.mem_cons.mp hx with he | h
        · exfalso
          rw [he] at hqx
          rw [hqx] at ha
          exact Bool.noConfusion ha
        · exact h
      exact ih x hxt hqx (fun y hy hqy => huniq y (List.mem_cons_of_mem _ hy) hqy)
    · rw [List.find?_cons_of_pos _ (by simp [ha])]
      rw [huniq a (List.mem_cons_self _ _) ha]

theorem dset_self_of_mem {α : Type} (d : Dict α) (k : String) (v : α)
    (hmem : (k, v) ∈ d) (hnd : (d.map Prod.fst).Nodup) : dset d k v = d := by
  induction d with
  | nil => exact absurd hmem (List.not_mem_nil _)
  | cons p rest ih =>
    obtain ⟨k₀, v₀⟩ := p
    rw [List.map_cons, List.nodup_cons] at hnd
    rcases List.mem_cons.mp hmem with he | hmem'
    · injection he with h1 h2
      subst h1
      subst h2
      simp [dset]
    · have hne : k₀ ≠ k := by
        intro he
        apply hnd.1
        rw [he]
        exact List.mem_map.mpr ⟨(k, v), hmem', rfl⟩
      rw [dset, if_neg hne, ih hmem' hnd.2]

theorem length_filter_dset (q : String × CrawlResult → Bool) :
    ∀ (recs : Dict CrawlResult) (eid : String) (r' : CrawlResult),
      (recs.map Prod.fst).Nodup → eid ∈ recs.map Prod.fst →
      q (eid, r') = true →
      (∀ p ∈ recs, p.1 ≠ eid → q p = false) →
      ((dset recs eid r').filter q).length = 1 := by
  intro recs
  induction recs with
  | nil =>
    intro eid r' _ hkey _ _
    simp at hkey
  | cons p rest ih =>
    obtain ⟨k₀, v₀⟩ := p
    intro eid r' hnd hkey hq hothers
    rw [List.map_cons, List.nodup_cons] at hnd
    by_cases h₀ : k₀ = eid
    · subst h₀
      rw [dset, if_pos rfl]
      have hrest : rest.filter q = [] := by
        rw [List.filter_eq_nil_iff]
        intro a ha
        have hne : a.1 ≠ k₀ := by
          intro he
          apply hnd.1
          rw [← he]
          exact List.mem_map.mpr ⟨a, ha, rfl⟩
        simp [hothers a (List.mem_cons_of_mem _ ha) hne]
      simp [List.filter_cons, hq, hrest]
    · rw [dset, if_neg h₀]
      have hkey' : eid ∈ rest.map Prod.fst := by
        rw [List.map_cons] at hkey
        rcases List.mem_cons.mp hkey with he | h
        · exact absurd he.symm h₀
        · exact h
      have hq₀ : q (k₀, v₀) = false :=
        hothers (k₀, v₀) (List.mem_cons_self _ _) h₀
      rw [List.filter_cons]
      simp only [hq₀, Bool.false_eq_true, if_false]
      exact ih eid r' hnd.2 hkey' hq
        (fun p hp hne => hothers p (List.mem_cons_of_mem _ hp) hne)

/-- C2 counterexample: when the shared content hash is `None` (falsy), the
dedup branch of `add` does not run — a strictly better newcomer with the same
(`None`) content hash as a resident record is inserted alongside it, leaving
two resident records with that hash and not replacing the incumbent, contrary
to the claim read over every result. -/
theorem C2_dedup_counterexample :
    nilHashR.contentHash = nilHashE.contentHash ∧
    dget nilHashStore.records "e1" = some nilHashE ∧
    nilHashE.score < nilHashR.score ∧
    ((nilHashStore.add (fun _ => 60) nilHashR).records.filter
        (fun p => p.2.contentHash == nilHashR.contentHash)).length = 2 ∧
    dget (nilHashStore.add (fun _ => 60) nilHashR).records "e1" = some nilHashE := by
  refine ⟨rfl, rfl, by decide, by decide, rfl⟩

/-- C2 amended: for every store with distinct keys and every result `r0` whose
content hash is truthy (neither `None` nor empty) and equal to that of exactly
one resident record `e`, `add(r0)` leaves exactly one resident record with
that hash: `e` is replaced (in place, under `e`'s key) by `r0` exactly when
`r0.score` is strictly higher or `r0.updated_at` strictly newer, and otherwise
the call is a silent no-op; the winning record is retrievable under `e`'s
key afterwards. -/
theorem C2_dedup_amended (s : CrawlerStore) (sizeOf : CrawlResult → ℕ)
    (r0 : CrawlResult) (e : CrawlResult)
    (hnd : (s.records.map Prod.fst).Nodup)
    (htr : hashTruthy r0.contentHash = true)
    (hmem : (e.id, e) ∈ s.records)
    (hhash : e.contentHash = r0.contentHash)
    (huniq : ∀ p ∈ s.records, p.2.contentHash = r0.contentHash → p = (e.id, e)) :
    ((s.add sizeOf r0).records.filter
        (fun p => p.2.contentHash == r0.contentHash)).length = 1 ∧
    dget (s.add sizeOf r0).records e.id
      = some (if e.score < r0.score ∨ e.updatedAt < r0.updatedAt
          then { r0 with sizeBytes := sizeOf r0 } else e) ∧
    (¬ (e.score < r0.score ∨ e.updatedAt < r0.updatedAt) → s.add sizeOf r0 = s) := by
  have hf := find?_eq_some_of_unique (fun p => p.2.contentHash == r0.contentHash)
    s.records (e.id, e) hmem (by simp [hhash])
    (fun y hy hqy => huniq y hy (by simpa using hqy))
  have hfind : findDup s.records r0.contentHash = some e := by
    rw [findDup, hf]
    rfl
  have hothers : ∀ p ∈ s.records, p.1 ≠ e.id →
      (p.2.contentHash == r0.contentHash) = false := by
    intro p hp hne
    rw [beq_eq_false_iff_ne]
    intro he
    apply hne
    rw [huniq p hp he]
  by_cases hcond : e.score < r0.score ∨ e.updatedAt < r0.updatedAt
  · have heq : s.add sizeOf r0 = { s with
        records := dset s.records e.id { r0 with sizeBytes := sizeOf r0 },
        sizes := dset s.sizes r0.id (sizeOf r0),
        memoryUsage := s.memoryUsage
          + ((sizeOf r0 : ℤ) - (dgetD s.sizes e.id 0 : ℕ)) } := by
      simp only [CrawlerStore.add, htr, if_true, hfind]
      rw [if_pos hcond]
    rw [heq]
    refine ⟨?_, ?_, fun hc => absurd hcond hc⟩
    · apply length_filter_dset _ s.records e.id _ hnd
        (List.mem_map.mpr ⟨(e.id, e), hmem, rfl⟩) (by simp) hothers
    · rw [if_pos hcond]
      exact dget_dset_self _ _ _
  · have heq : s.add sizeOf r0 = s := by
      simp only [CrawlerStore.add, htr, if_true, hfind]
      rw [if_neg hcond]
    rw [heq]
    refine ⟨?_, ?_, fun _ => rfl⟩
    · rw [← dset_self_of_mem s.records e.id e hmem hnd]
      exact length_filter_dset _ s.records e.id e hnd
        (List.mem_map.mpr ⟨(e.id, e), hmem, rfl⟩) (by simp [hhash]) hothers
    · rw [if_neg hcond]
      exact dget_of_mem_nodup s.records (e.id, e) hmem hnd

/-- Witness for C2 at concrete inputs: a strictly better newcomer sharing the
resident record's truthy hash leaves exactly one record with that hash, stored
under the incumbent's key. -/
theorem C2_dedup_amended_witness :
    ((dupStore.add (fun _ => 60) dupR).records.filter
        (fun p => p.2.contentHash == dupR.contentHash)).length = 1 ∧
    dget (dupStore.add (fun _ => 60) dupR).records "e1"
      = some { dupR with sizeBytes := 60 } := by
  have h := C2_dedup_amended dupStore (fun _ => 60) dupR dupE
    (by decide) (by decide) (by decide) (by decide) (by decide)
  refine ⟨h.1, ?_⟩
  have h2 := h.2.1
  rw [if_pos (by decide)] at h2
  exact h2

-- ===== MORE THEOREMS =====

end Crawler
